import Mathlib

/-!
Verification of the memorydb transactional key-value store (`store.go`).

The engine state is a chain of `Store` layers (Go: `Store` structs linked by
`Parent` pointers).  Each layer holds an overlay `Kv : key -> value` and a
count delta `CountDiff : value -> int`.  Go maps are embedded as:
`Kv` as an association list with replace-on-insert (matching Go map
assignment extensionally, and map iteration order is irrelevant for the
results below), `CountDiff` as a total function `String -> Int` with
default `0` (matching Go's zero-value-on-miss semantics).
-/

namespace MemoryDb

/-- The two error sentinels of `store.go` (`ERR_KEY_NOT_EXIST`,
`ERR_NOT_TRANSACTION`). -/
inductive Err where
  | keyNotFound
  | notTransaction
deriving DecidableEq

/-- A Go `map[string]string`: association list, at most one live binding per
key (insert replaces). -/
abbrev Kv := List (String × String)

/-- A Go `map[string]int` read with zero-default, embedded extensionally as a
total function. -/
abbrev CountDiff := String → Int

/-- Go map read `m[k]` (with `ok`): first binding for `k`, if any. -/
def kvLookup (m : Kv) (k : String) : Option String :=
  match m with
  | [] => none
  | (k', v) :: t => if k' = k then some v else kvLookup t k

/-- Go map write `m[k] = v`: replaces any existing binding for `k`. -/
def kvInsert (m : Kv) (k v : String) : Kv :=
  (k, v) :: m.filter (fun p => p.1 ≠ k)

/-- Go `m[v] += d` on a zero-defaulting int map. -/
def cdAdd (cd : CountDiff) (v : String) (d : Int) : CountDiff :=
  fun w => if w = v then cd w + d else cd w

/-- The `Store` struct (store.go lines 20-24): overlay `Kv`, `CountDiff`,
and an optional `Parent` (the `root` constructor is `Parent == nil`). -/
inductive Store where
  | root (kv : Kv) (cd : CountDiff)
  | node (kv : Kv) (cd : CountDiff) (parent : Store)

/-- The layer's own overlay (`s.Kv`). -/
def Store.kv : Store → Kv
  | .root m _ => m
  | .node m _ _ => m

/-- The layer's own count delta (`s.CountDiff`). -/
def Store.cdOf : Store → CountDiff
  | .root _ cd => cd
  | .node _ cd _ => cd

/-- The layer's parent (`s.Parent`), `none` at the root. -/
def Store.parentOf : Store → Option Store
  | .root _ _ => none
  | .node _ _ p => some p

/-- Number of ancestors of the current layer (0 at the root). -/
def Store.depth : Store → Nat
  | .root _ _ => 0
  | .node _ _ p => p.depth + 1

/-- Overwrite the current layer's overlay binding for `key`
(Go `s.Kv[key] = value`). -/
def Store.setKv (s : Store) (key value : String) : Store :=
  match s with
  | .root m cd => .root (kvInsert m key value) cd
  | .node m cd p => .node (kvInsert m key value) cd p

/-- Adjust the current layer's count delta at `v`
(Go `s.CountDiff[v] += d`). -/
def Store.addCd (s : Store) (v : String) (d : Int) : Store :=
  match s with
  | .root m cd => .root m (cdAdd cd v d)
  | .node m cd p => .node m (cdAdd cd v d) p

/-- `Store.Get` (store.go lines 90-104): overlay hit at the current layer is
definitive (even the empty string); otherwise recurse into the parent;
at the root a miss returns the zero value "" with `ERR_KEY_NOT_EXIST`. -/
def Store.Get : Store → String → String × Option Err
  | .root m _, k =>
    match kvLookup m k with
    | some v => (v, none)
    | none => ("", some Err.keyNotFound)
  | .node m _ p, k =>
    match kvLookup m k with
    | some v => (v, none)
    | none => p.Get k

/-- `Store.Set` (store.go lines 65-85): resolve the old value via `Get`;
propagate any error other than `ERR_KEY_NOT_EXIST`; decrement the old
value's count when `Get` did not fail; write the overlay; increment the
new value's count when it is non-empty. -/
def Store.Set (s : Store) (key value : String) : Option Err × Store :=
  if (s.Get key).2 ≠ none ∧ (s.Get key).2 ≠ some Err.keyNotFound then
    ((s.Get key).2, s)
  else
    let s1 := if (s.Get key).2 ≠ some Err.keyNotFound then
        s.addCd (s.Get key).1 (-1)
      else s
    let s2 := s1.setKv key value
    let s3 := if value ≠ "" then s2.addCd value 1 else s2
    (none, s3)

/-- `Store.Delete` (store.go lines 107-118): fail when `Get` fails,
otherwise rewrite the key to the empty-string tombstone via `Set`. -/
def Store.Delete (s : Store) (key : String) : Option Err × Store :=
  match (s.Get key).2 with
  | some e => (some e, s)
  | none => (none, (s.Set key "").2)

/-- `Store.Count` (store.go lines 122-135): the layer's own delta plus the
parent's count; a parent error is propagated with payload `-1`. -/
def Store.Count : Store → String → Int × Option Err
  | .root _ cd, v => (cd v, none)
  | .node _ cd p, v =>
    match (p.Count v).2 with
    | some e => (-1, some e)
    | none => (cd v + (p.Count v).1, none)

/-- `Store.Begin` (store.go lines 140-144): push a fresh empty layer whose
parent is the current layer. -/
def Store.Begin (s : Store) : Option Err × Store :=
  (none, .node [] (fun _ => 0) s)

/-- `Store.Rollback` (store.go lines 148-154): at the root fail with
`ERR_NOT_TRANSACTION`; otherwise discard the current layer. -/
def Store.Rollback : Store → Option Err × Store
  | .root m cd => (some Err.notTransaction, .root m cd)
  | .node _ _ p => (none, p)

/-- `Store.GetPrimaryStore` (store.go lines 48-53): follow parent links to
the root. -/
def Store.GetPrimaryStore : Store → Store
  | .root m cd => .root m cd
  | .node _ _ p => p.GetPrimaryStore

/-- The recursive calls of `commitCountDiffs` (store.go lines 189-199) seen
from the callee: `d` is the finite-support delta the caller's loop has just
added into this layer's `CountDiff` (entries absent from the Go map
contribute 0, so the pointwise sum is the extensional translation of the
`+=` loop); the walk continues until the primary store's accumulated map is
returned. -/
def Store.commitCountDiffsAux : Store → CountDiff → CountDiff
  | .root _ cd, d => fun v => cd v + d v
  | .node _ cd p, d => p.commitCountDiffsAux (fun v => cd v + d v)

/-- `Store.commitCountDiffs` (store.go lines 189-199): fold each layer's
delta into its parent, walking up; return the root's accumulated map. -/
def Store.commitCountDiffs : Store → CountDiff
  | .root _ cd => cd
  | .node _ cd p => p.commitCountDiffsAux cd

/-- The Kv-copy loop of `Commit` (store.go lines 172-174): write every
binding of `entries` into `base` (distinct keys, so iteration order is
immaterial). -/
def kvMergeInto (base : Kv) (entries : Kv) : Kv :=
  entries.foldl (fun m p => kvInsert m p.1 p.2) base

/-- `Store.Commit` (store.go lines 159-184): at the root fail with
`ERR_NOT_TRANSACTION`; otherwise copy the current layer's overlay into the
primary store's overlay, replace the primary's `CountDiff` with the
accumulated diffs, and make the primary current (all intermediate layers
are discarded). -/
def Store.Commit (s : Store) : Option Err × Store :=
  match s with
  | .root m cd => (some Err.notTransaction, .root m cd)
  | .node m _ _ =>
    (none, .root (kvMergeInto s.GetPrimaryStore.kv m) s.commitCountDiffs)

/-- The engine's seven operations (§6 of the interface). -/
inductive Op where
  | set (k v : String)
  | get (k : String)
  | del (k : String)
  | count (v : String)
  | begin
  | rollback
  | commit
deriving DecidableEq

/-- Run one operation against the current store, returning the Go error
value and the store that is current afterwards (`Get` and `Count` never
move the current pointer nor mutate any layer). -/
def Store.applyOp (s : Store) (op : Op) : Option Err × Store :=
  match op with
  | .set k v => s.Set k v
  | .get k => ((s.Get k).2, s)
  | .del k => s.Delete k
  | .count v => ((s.Count v).2, s)
  | .begin => s.Begin
  | .rollback => s.Rollback
  | .commit => s.Commit

/-- The state transition of one operation. -/
def Store.step (s : Store) (op : Op) : Store :=
  (s.applyOp op).2

/-- `InitStore` (store.go lines 31-34): a fresh root layer. -/
def initStore : Store := .root [] (fun _ => 0)

/-- Run a sequence of operations. -/
def run (s : Store) (ops : List Op) : Store :=
  ops.foldl Store.step s

/-- A state reachable from the initial store by some operation sequence. -/
def Reachable (s : Store) : Prop :=
  ∃ ops : List Op, run initStore ops = s

/-- Reachability restricted to sequences that never invoke `Commit` at
nesting depth two or more (the regime the spec calls conventional
single-level commit). -/
inductive ReachableSh : Store → Prop where
  | init : ReachableSh initStore
  | step {s : Store} (op : Op) : ReachableSh s → (op = .commit → s.depth ≤ 1) →
      ReachableSh (s.step op)

/-! ### Observations on a store -/

/-- All keys recorded in some overlay of the chain. -/
def Store.keysF : Store → Finset String
  | .root m _ => (m.map Prod.fst).toFinset
  | .node m _ p => (m.map Prod.fst).toFinset ∪ p.keysF

/-- Whether some layer from the current one to the root records `k`. -/
def Store.records : Store → String → Bool
  | .root m _, k => (kvLookup m k).isSome
  | .node m _ p, k => (kvLookup m k).isSome || p.records k

/-- The number of keys whose `Get` currently resolves to `v`. -/
def Store.resolveCount (s : Store) (v : String) : Nat :=
  (s.keysF.filter (fun k => s.Get k = (v, none))).card

/-- The pointwise sum of every layer's count delta. -/
def Store.countVal : Store → String → Int
  | .root _ cd, v => cd v
  | .node _ cd p, v => cd v + p.countVal v

/-- Well-formed overlay: at most one binding per key. -/
def KvWF (m : Kv) : Prop := (m.map Prod.fst).Nodup

/-- Every layer's overlay is well-formed. -/
def Store.WF : Store → Prop
  | .root m _ => KvWF m
  | .node m _ p => KvWF m ∧ p.WF

/-- The Count-Get consistency property at the current layer, for non-empty
values. -/
def CountInv (s : Store) : Prop :=
  ∀ v, v ≠ "" → s.countVal v = (s.resolveCount v : Int)

/-- `CountInv` at every layer of the chain. -/
def AllCountInv : Store → Prop
  | .root m cd => CountInv (.root m cd)
  | .node m cd p => CountInv (.node m cd p) ∧ AllCountInv p

/-- Observational equivalence: identical `Get` and `Count` results. -/
def obsEq (s t : Store) : Prop :=
  (∀ k, s.Get k = t.Get k) ∧ ∀ v, s.Count v = t.Count v

/-- The four operations that touch only the current layer. -/
def isLocal : Op → Bool
  | .set _ _ => true
  | .get _ => true
  | .del _ => true
  | .count _ => true
  | _ => false

/-- The values that appear as the value argument of some `set` in the
sequence. -/
def setValues : List Op → List String
  | [] => []
  | .set _ v :: t => v :: setValues t
  | _ :: t => setValues t

/-! ### Association-list map lemmas -/

theorem kvLookup_filter_ne {k k' : String} (h : k ≠ k') (m : Kv) :
    kvLookup (m.filter (fun p => !decide (p.1 = k))) k' = kvLookup m k' := by
  induction m with
  | nil => rfl
  | cons q t ih =>
    cases q with
    | mk a b =>
      rw [List.filter_cons]
      by_cases ha : a = k
      · rw [if_neg (by simp [ha])]
        have hak' : a ≠ k' := ha ▸ h
        simp [kvLookup, hak', ih]
      · rw [if_pos (by simp [ha])]
        by_cases ha' : a = k' <;> simp [kvLookup, ha', ih]

theorem kvLookup_kvInsert (m : Kv) (k v k' : String) :
    kvLookup (kvInsert m k v) k' = if k = k' then some v else kvLookup m k' := by
  by_cases h : k = k'
  · simp [kvInsert, kvLookup, h]
  · simp [kvInsert, kvLookup, h, kvLookup_filter_ne h m]

theorem kvLookup_eq_none_of_not_mem {m : Kv} {k : String}
    (h : k ∉ m.map Prod.fst) : kvLookup m k = none := by
  induction m with
  | nil => rfl
  | cons q t ih =>
    simp only [List.map_cons, List.mem_cons] at h
    push_neg at h
    cases q with
    | mk a b =>
      have ha : a ≠ k := fun hak => h.1 hak.symm
      simp [kvLookup, ha, ih h.2]

theorem kvLookup_isSome_iff_mem {m : Kv} {k : String} :
    (kvLookup m k).isSome = true ↔ k ∈ (m.map Prod.fst).toFinset := by
  induction m with
  | nil => simp [kvLookup]
  | cons q t ih =>
    cases q with
    | mk a b =>
      by_cases ha : a = k
      · simp [kvLookup, ha]
      · have : ¬ k = a := fun hh => ha hh.symm
        simp [kvLookup, ha, this, ih]

theorem kvLookup_mem {m : Kv} {k v : String} (h : kvLookup m k = some v) :
    (k, v) ∈ m := by
  induction m with
  | nil => simp [kvLookup] at h
  | cons q t ih =>
    cases q with
    | mk a b =>
      by_cases ha : a = k
      · simp only [kvLookup, ha, if_true, Option.some.injEq] at h
        subst ha; subst h; exact List.mem_cons_self _ _
      · simp only [kvLookup, ha, if_false] at h
        exact List.mem_cons_of_mem _ (ih h)

theorem keys_kvInsert (m : Kv) (k v : String) :
    ((kvInsert m k v).map Prod.fst).toFinset =
      insert k (m.map Prod.fst).toFinset := by
  ext a
  simp only [kvInsert, List.map_cons, List.toFinset_cons, Finset.mem_insert,
    List.mem_toFinset, List.mem_map, List.mem_filter]
  constructor
  · rintro (rfl | ⟨p, ⟨hp, _⟩, rfl⟩)
    · exact Or.inl rfl
    · exact Or.inr ⟨p, hp, rfl⟩
  · rintro (rfl | ⟨p, hp, rfl⟩)
    · exact Or.inl rfl
    · by_cases hpk : p.1 = k
      · exact Or.inl hpk
      · exact Or.inr ⟨p, ⟨hp, by simpa using hpk⟩, rfl⟩

theorem KvWF_kvInsert {m : Kv} (h : KvWF m) (k v : String) :
    KvWF (kvInsert m k v) := by
  unfold KvWF kvInsert
  simp only [List.map_cons, List.nodup_cons]
  constructor
  · intro hm
    rcases List.mem_map.mp hm with ⟨p, hp, hfst⟩
    exact absurd hfst (by simpa using (List.mem_filter.mp hp).2)
  · exact ((List.filter_sublist m).map Prod.fst).nodup h

theorem mem_kvInsert {m : Kv} {k v : String} {q : String × String}
    (h : q ∈ kvInsert m k v) : q = (k, v) ∨ q ∈ m := by
  rcases List.mem_cons.mp h with h | h
  · exact Or.inl h
  · exact Or.inr (List.mem_of_mem_filter h)

/-! ### Basic store lemmas -/

theorem get_err_cases (s : Store) (k : String) :
    (s.Get k).2 = none ∨ (s.Get k).2 = some Err.keyNotFound := by
  induction s with
  | root m cd =>
    unfold Store.Get
    cases kvLookup m k <;> simp
  | node m cd p ih =>
    unfold Store.Get
    cases kvLookup m k <;> simp [ih]

theorem get_err_none_iff_records (s : Store) (k : String) :
    (s.Get k).2 = none ↔ s.records k = true := by
  induction s with
  | root m cd =>
    unfold Store.Get Store.records
    cases kvLookup m k <;> simp
  | node m cd p ih =>
    unfold Store.Get Store.records
    cases kvLookup m k <;> simp [ih]

theorem mem_keysF_iff_records (s : Store) (k : String) :
    k ∈ s.keysF ↔ s.records k = true := by
  induction s with
  | root m cd =>
    unfold Store.keysF Store.records
    exact kvLookup_isSome_iff_mem.symm
  | node m cd p ih =>
    unfold Store.keysF Store.records
    rw [Finset.mem_union, ← kvLookup_isSome_iff_mem, ih, Bool.or_eq_true]

theorem Count_eq_countVal (s : Store) (v : String) :
    s.Count v = (s.countVal v, none) := by
  induction s with
  | root m cd => rfl
  | node m cd p ih =>
    unfold Store.Count Store.countVal
    rw [ih]

/-! ### Head-update lemmas: `setKv` and `addCd` touch only the current
layer's overlay and delta respectively -/

theorem Get_setKv_self (s : Store) (k v : String) :
    (s.setKv k v).Get k = (v, none) := by
  cases s <;> simp [Store.setKv, Store.Get, kvLookup_kvInsert]

theorem Get_setKv_ne (s : Store) {k k' : String} (v : String) (h : k ≠ k') :
    (s.setKv k v).Get k' = s.Get k' := by
  cases s <;> simp [Store.setKv, Store.Get, kvLookup_kvInsert, h]

theorem Get_addCd (s : Store) (v : String) (d : Int) (k : String) :
    (s.addCd v d).Get k = s.Get k := by
  cases s <;> rfl

theorem keysF_setKv (s : Store) (k v : String) :
    (s.setKv k v).keysF = insert k s.keysF := by
  cases s with
  | root m cd => simp [Store.setKv, Store.keysF, keys_kvInsert]
  | node m cd p =>
    simp [Store.setKv, Store.keysF, keys_kvInsert, Finset.insert_union]

theorem keysF_addCd (s : Store) (v : String) (d : Int) :
    (s.addCd v d).keysF = s.keysF := by
  cases s <;> rfl

theorem countVal_setKv (s : Store) (k v w : String) :
    (s.setKv k v).countVal w = s.countVal w := by
  cases s <;> rfl

theorem countVal_addCd (s : Store) (v : String) (d : Int) (w : String) :
    (s.addCd v d).countVal w = s.countVal w + (if w = v then d else 0) := by
  cases s <;> simp [Store.addCd, Store.countVal, cdAdd] <;> split <;> ring

theorem parentOf_setKv (s : Store) (k v : String) :
    (s.setKv k v).parentOf = s.parentOf := by
  cases s <;> rfl

theorem parentOf_addCd (s : Store) (v : String) (d : Int) :
    (s.addCd v d).parentOf = s.parentOf := by
  cases s <;> rfl

theorem WF_setKv {s : Store} (h : s.WF) (k v : String) : (s.setKv k v).WF := by
  cases s with
  | root m cd => exact KvWF_kvInsert h k v
  | node m cd p => exact ⟨KvWF_kvInsert h.1 k v, h.2⟩

theorem WF_addCd {s : Store} (h : s.WF) (v : String) (d : Int) :
    (s.addCd v d).WF := by
  cases s <;> exact h

/-- `Get` through a freshly-begun (empty) layer is the parent's `Get`. -/
theorem Get_push (cd0 : CountDiff) (s : Store) (k : String) :
    (Store.node [] cd0 s).Get k = s.Get k := rfl

/-- Characterization of `Set` on states (its guard branch is dead because
`Get` only ever fails with `keyNotFound`): decrement the resolved old
value's count when `Get` succeeded, write the overlay, increment the new
value's count when non-empty. -/
theorem Set_eq (s : Store) (key value : String) :
    s.Set key value =
      (none,
        let s1 := if (s.Get key).2 = none then
            s.addCd (s.Get key).1 (-1)
          else s
        let s2 := s1.setKv key value
        if value = "" then s2 else s2.addCd value 1) := by
  unfold Store.Set
  rcases get_err_cases s key with h | h <;> simp [h]

/-! ### Commit lemmas -/

theorem commitCountDiffsAux_eq (s : Store) (d : CountDiff) (v : String) :
    s.commitCountDiffsAux d v = s.countVal v + d v := by
  induction s generalizing d with
  | root m cd => rfl
  | node m cd p ih =>
    show p.commitCountDiffsAux (fun w => cd w + d w) v = _
    rw [ih]
    simp [Store.countVal]
    ring

theorem commitCountDiffs_eq_countVal (s : Store) (v : String) :
    s.commitCountDiffs v = s.countVal v := by
  cases s with
  | root m cd => rfl
  | node m cd p =>
    show p.commitCountDiffsAux cd v = _
    rw [commitCountDiffsAux_eq]
    simp [Store.countVal]
    ring

theorem kvMergeInto_cons (base : Kv) (a b : String) (t : Kv) :
    kvMergeInto base ((a, b) :: t) = kvMergeInto (kvInsert base a b) t := rfl

theorem kvLookup_kvMergeInto {m : Kv} (hm : KvWF m) (base : Kv) (k : String) :
    kvLookup (kvMergeInto base m) k =
      match kvLookup m k with
      | some v => some v
      | none => kvLookup base k := by
  induction m generalizing base with
  | nil => rfl
  | cons q t ih =>
    cases q with
    | mk a b =>
      have hm' : a ∉ t.map Prod.fst ∧ KvWF t := by
        simpa [KvWF, List.nodup_cons] using hm
      rw [kvMergeInto_cons, ih hm'.2]
      by_cases hak : a = k
      · subst hak
        rw [kvLookup_eq_none_of_not_mem hm'.1]
        simp [kvLookup, kvLookup_kvInsert]
      · cases hkt : kvLookup t k <;>
          simp [kvLookup, hak, hkt, kvLookup_kvInsert,
            kvLookup_filter_ne hak base]

theorem keys_kvMergeInto (base m : Kv) :
    ((kvMergeInto base m).map Prod.fst).toFinset =
      (m.map Prod.fst).toFinset ∪ (base.map Prod.fst).toFinset := by
  induction m generalizing base with
  | nil => simp [kvMergeInto]
  | cons q t ih =>
    cases q with
    | mk a b =>
      rw [kvMergeInto_cons, ih, keys_kvInsert]
      ext x
      simp only [List.map_cons, List.toFinset_cons, Finset.mem_union,
        Finset.mem_insert, List.mem_toFinset]
      tauto

theorem KvWF_kvMergeInto {base : Kv} (h : KvWF base) (m : Kv) :
    KvWF (kvMergeInto base m) := by
  induction m generalizing base with
  | nil => exact h
  | cons q t ih => exact ih (KvWF_kvInsert h q.1 q.2)

theorem mem_kvMergeInto {base m : Kv} {q : String × String}
    (h : q ∈ kvMergeInto base m) : q ∈ base ∨ q ∈ m := by
  induction m generalizing base with
  | nil => exact Or.inl h
  | cons p t ih =>
    rcases ih h with h' | h'
    · rcases mem_kvInsert h' with h'' | h''
      · right
        rw [h'']
        exact List.mem_cons_self _ _
      · exact Or.inl h''
    · exact Or.inr (List.mem_cons_of_mem _ h')

theorem Commit_node (m : Kv) (cd : CountDiff) (p : Store) :
    (Store.node m cd p).Commit =
      (none,
        .root (kvMergeInto (Store.node m cd p).GetPrimaryStore.kv m)
          (Store.node m cd p).commitCountDiffs) := rfl

/-- The merged root produced by a depth-1 `Commit` answers `Get` exactly as
the two-layer chain did. -/
theorem Get_merge_depth1 {m : Kv} (hm : KvWF m) (cd cdX : CountDiff)
    (m0 : Kv) (cd0 : CountDiff) (k : String) :
    (Store.root (kvMergeInto m0 m) cdX).Get k =
      (Store.node m cd (.root m0 cd0)).Get k := by
  unfold Store.Get
  rw [kvLookup_kvMergeInto hm]
  cases kvLookup m k with
  | some v => simp
  | none =>
    unfold Store.Get
    cases kvLookup m0 k <;> simp

/-! ### Facts about `Set` as a state transformation -/

theorem Set_fst (s : Store) (key value : String) :
    (s.Set key value).1 = none := by
  rw [Set_eq]

theorem Get_Set_self (s : Store) (key value : String) :
    ((s.Set key value).2).Get key = (value, none) := by
  rw [Set_eq]
  dsimp only
  by_cases hf : (s.Get key).2 = none <;> by_cases hval : value = "" <;>
    simp [hf, hval, Get_addCd, Get_setKv_self]

theorem Get_Set_ne (s : Store) {key k' : String} (value : String)
    (h : key ≠ k') : ((s.Set key value).2).Get k' = s.Get k' := by
  rw [Set_eq]
  dsimp only
  by_cases hf : (s.Get key).2 = none <;> by_cases hval : value = "" <;>
    simp [hf, hval, Get_addCd, Get_setKv_ne _ _ h]

theorem keysF_Set (s : Store) (key value : String) :
    ((s.Set key value).2).keysF = insert key s.keysF := by
  rw [Set_eq]
  dsimp only
  by_cases hf : (s.Get key).2 = none <;> by_cases hval : value = "" <;>
    simp [hf, hval, keysF_addCd, keysF_setKv]

theorem countVal_Set (s : Store) (key value w : String) :
    ((s.Set key value).2).countVal w =
      s.countVal w
        + (if (s.Get key).2 = none then
            (if w = (s.Get key).1 then -1 else 0) else 0)
        + (if value = "" then 0 else (if w = value then 1 else 0)) := by
  rw [Set_eq]
  dsimp only
  by_cases hf : (s.Get key).2 = none <;> by_cases hval : value = "" <;>
    simp [hf, hval, countVal_addCd, countVal_setKv]

theorem WF_Set {s : Store} (h : s.WF) (key value : String) :
    ((s.Set key value).2).WF := by
  rw [Set_eq]
  dsimp only
  by_cases hf : (s.Get key).2 = none <;> by_cases hval : value = "" <;>
    simp [hf, hval] <;>
    first
      | exact WF_addCd (WF_setKv (WF_addCd h _ _) _ _) _ _
      | exact WF_setKv (WF_addCd h _ _) _ _
      | exact WF_addCd (WF_setKv h _ _) _ _
      | exact WF_setKv h _ _

/-- Decompose a filtered card at a distinguished member. -/
theorem card_filter_erase_add {K : Finset String} {a : String} (ha : a ∈ K)
    (p : String → Prop) [DecidablePred p] :
    (K.filter p).card =
      ((K.erase a).filter p).card + (if p a then 1 else 0) := by
  conv_lhs => rw [← Finset.insert_erase ha]
  rw [Finset.filter_insert]
  by_cases hp : p a
  · rw [if_pos hp, if_pos hp]
    rw [Finset.card_insert_of_not_mem]
    intro hmem
    exact (Finset.mem_erase.mp (Finset.mem_of_mem_filter _ hmem)).1 rfl
  · rw [if_neg hp, if_neg hp, Nat.add_zero]

/-- The Count-Get consistency of non-empty values is preserved by `Set`. -/
theorem countInv_Set {s : Store} (h : CountInv s) (key value : String) :
    CountInv ((s.Set key value).2) := by
  intro v hv
  have hcv := countVal_Set s key value v
  have hKeys := keysF_Set s key value
  have hGS := Get_Set_self s key value
  rcases get_err_cases s key with hf | hf
  · -- the key resolved before the Set: a decrement is recorded
    have hkmem : key ∈ s.keysF :=
      (mem_keysF_iff_records s key).mpr ((get_err_none_iff_records s key).mp hf)
    have hins : insert key s.keysF = s.keysF := Finset.insert_eq_self.mpr hkmem
    have hkmem' : key ∈ ((s.Set key value).2).keysF := by
      rw [hKeys]
      exact Finset.mem_insert_self _ _
    have hpair : s.Get key = ((s.Get key).1, none) := by
      rw [← hf]
    have hA :
        ((s.Set key value).2).resolveCount v =
          ((((s.Set key value).2).keysF.erase key).filter
              (fun k => (s.Set key value).2.Get k = (v, none))).card
            + (if value = v then 1 else 0) := by
      unfold Store.resolveCount
      rw [card_filter_erase_add hkmem']
      simp only [hGS, Prod.mk.injEq, and_true]
    have hEq :
        (((s.Set key value).2).keysF.erase key).filter
            (fun k => (s.Set key value).2.Get k = (v, none)) =
          (s.keysF.erase key).filter (fun k => s.Get k = (v, none)) := by
      rw [hKeys, hins]
      refine Finset.filter_congr fun k hk => ?_
      rw [Get_Set_ne s value (Ne.symm (Finset.mem_erase.mp hk).1)]
    have hB : s.resolveCount v =
        ((s.keysF.erase key).filter (fun k => s.Get k = (v, none))).card
          + (if (s.Get key).1 = v then 1 else 0) := by
      unfold Store.resolveCount
      rw [card_filter_erase_add hkmem]
      congr 1
      rw [hpair]
      simp only [Prod.mk.injEq, and_true]
    rw [hcv, hf, if_pos rfl, hA, hEq, h v hv, hB]
    rcases eq_or_ne (s.Get key).1 v with ho | ho <;>
      rcases eq_or_ne value v with hw | hw <;>
      by_cases hval : value = "" <;>
      simp [ho, hw, hval, Ne.symm, hv]
  · -- the key did not resolve: no decrement
    have hknot : key ∉ s.keysF := by
      rw [mem_keysF_iff_records]
      intro hrec
      have hnone := (get_err_none_iff_records s key).mpr hrec
      rw [hf] at hnone
      cases hnone
    have hEq :
        (s.keysF.filter (fun k => (s.Set key value).2.Get k = (v, none))) =
          (s.keysF.filter (fun k => s.Get k = (v, none))) := by
      refine Finset.filter_congr fun k hk => ?_
      rw [Get_Set_ne s value (fun hkey => hknot (by rw [hkey]; exact hk))]
    have hA :
        ((s.Set key value).2).resolveCount v =
          s.resolveCount v + (if value = v then 1 else 0) := by
      unfold Store.resolveCount
      rw [hKeys, Finset.filter_insert]
      by_cases hvv : (s.Set key value).2.Get key = (v, none)
      · rw [if_pos hvv]
        rw [Finset.card_insert_of_not_mem
          (fun hmem => hknot (Finset.mem_of_mem_filter _ hmem))]
        rw [hEq]
        rw [hGS] at hvv
        have : value = v := by
          simpa using congrArg Prod.fst hvv
        rw [if_pos this]
      · rw [if_neg hvv, hEq]
        have : ¬ value = v := by
          intro hvv'
          exact hvv (by rw [hGS, hvv'])
        rw [if_neg this, Nat.add_zero]
    rw [hcv, hf]
    rw [hA, h v hv]
    by_cases hval : value = "" <;>
      rcases eq_or_ne value v with hw | hw <;>
      simp [hval, hw, Ne.symm, hv]

/-! ### Shape of `Set` results and per-operation invariant preservation -/

theorem Set_shape_root (m : Kv) (cd : CountDiff) (k v : String) :
    ∃ cd', ((Store.root m cd).Set k v).2 = Store.root (kvInsert m k v) cd' := by
  rw [Set_eq]
  dsimp only
  by_cases hf : ((Store.root m cd).Get k).2 = none <;>
    by_cases hval : v = "" <;>
      simp [hf, hval, Store.addCd, Store.setKv]

theorem Set_shape_node (m : Kv) (cd : CountDiff) (p : Store) (k v : String) :
    ∃ cd', ((Store.node m cd p).Set k v).2 = Store.node (kvInsert m k v) cd' p := by
  rw [Set_eq]
  dsimp only
  by_cases hf : ((Store.node m cd p).Get k).2 = none <;>
    by_cases hval : v = "" <;>
      simp [hf, hval, Store.addCd, Store.setKv]

theorem AllCountInv.head {s : Store} (h : AllCountInv s) : CountInv s := by
  cases s with
  | root m cd => exact h
  | node m cd p => exact h.1

theorem allCountInv_Set {s : Store} (h : AllCountInv s) (key value : String) :
    AllCountInv ((s.Set key value).2) := by
  have hc := countInv_Set h.head key value
  cases s with
  | root m cd =>
    obtain ⟨cd', hcd'⟩ := Set_shape_root m cd key value
    rw [hcd'] at hc ⊢
    exact hc
  | node m cd p =>
    obtain ⟨cd', hcd'⟩ := Set_shape_node m cd p key value
    rw [hcd'] at hc ⊢
    exact ⟨hc, h.2⟩

theorem Delete_cases (s : Store) (k : String) :
    (s.Delete k).2 = s ∨ (s.Delete k).2 = (s.Set k "").2 := by
  unfold Store.Delete
  cases (s.Get k).2 <;> simp

theorem allCountInv_Begin {s : Store} (h : AllCountInv s) :
    AllCountInv ((s.Begin).2) := by
  refine ⟨?_, h⟩
  intro v hv
  have hcv : ((s.Begin).2).countVal v = s.countVal v := by
    simp [Store.Begin, Store.countVal]
  have hks : ((s.Begin).2).keysF = s.keysF := by
    simp [Store.Begin, Store.keysF]
  have hres : ((s.Begin).2).resolveCount v = s.resolveCount v := by
    unfold Store.resolveCount
    rw [hks]
    exact congrArg Finset.card (Finset.filter_congr fun k _ => Iff.rfl)
  exact hres ▸ hcv ▸ h.head v hv

theorem countInv_Commit_depth1 {m : Kv} {cd : CountDiff} {m0 : Kv}
    {cd0 : CountDiff} (hwf : KvWF m)
    (h : CountInv (Store.node m cd (.root m0 cd0))) :
    AllCountInv (((Store.node m cd (.root m0 cd0)).Commit).2) := by
  have hres : ((Store.node m cd (.root m0 cd0)).Commit).2 =
      Store.root (kvMergeInto m0 m)
        ((Store.node m cd (.root m0 cd0)).commitCountDiffs) := rfl
  rw [hres]
  intro v hv
  have hcv :
      (Store.root (kvMergeInto m0 m)
          ((Store.node m cd (.root m0 cd0)).commitCountDiffs)).countVal v =
        (Store.node m cd (.root m0 cd0)).countVal v := by
    simp [Store.countVal, commitCountDiffs_eq_countVal]
  have hks :
      (Store.root (kvMergeInto m0 m)
          ((Store.node m cd (.root m0 cd0)).commitCountDiffs)).keysF =
        (Store.node m cd (.root m0 cd0)).keysF := by
    simp [Store.keysF, keys_kvMergeInto]
  have hres2 :
      (Store.root (kvMergeInto m0 m)
          ((Store.node m cd (.root m0 cd0)).commitCountDiffs)).resolveCount v =
        (Store.node m cd (.root m0 cd0)).resolveCount v := by
    unfold Store.resolveCount
    rw [hks]
    congr 1
    exact Finset.filter_congr fun k _ => by
      rw [Get_merge_depth1 hwf cd _ m0 cd0 k]
  rw [hcv, hres2]
  exact h v hv

theorem WF_primary {s : Store} (h : s.WF) : KvWF s.GetPrimaryStore.kv := by
  induction s with
  | root m cd => exact h
  | node m cd p ih => exact ih h.2

theorem WF_step {s : Store} (h : s.WF) (op : Op) : (s.step op).WF := by
  cases op with
  | set k v => exact WF_Set h k v
  | get k => exact h
  | del k =>
    rcases Delete_cases s k with hd | hd <;>
      simp only [Store.step, Store.applyOp, hd]
    · exact h
    · exact WF_Set h k ""
  | count v => exact h
  | begin => exact ⟨by simp [KvWF], h⟩
  | rollback =>
    cases s with
    | root m cd => exact h
    | node m cd p => exact h.2
  | commit =>
    cases s with
    | root m cd => exact h
    | node m cd p =>
      exact KvWF_kvMergeInto (WF_primary h.2) m

theorem allCountInv_step {s : Store} (hA : AllCountInv s) (hW : s.WF)
    (op : Op) (hop : op = .commit → s.depth ≤ 1) :
    AllCountInv (s.step op) := by
  cases op with
  | set k v => exact allCountInv_Set hA k v
  | get k => exact hA
  | del k =>
    rcases Delete_cases s k with hd | hd <;>
      simp only [Store.step, Store.applyOp, hd]
    · exact hA
    · exact allCountInv_Set hA k ""
  | count v => exact hA
  | begin => exact allCountInv_Begin hA
  | rollback =>
    cases s with
    | root m cd => exact hA
    | node m cd p => exact hA.2
  | commit =>
    cases s with
    | root m cd => exact hA
    | node m cd p =>
      have hdep : p.depth = 0 := by
        have := hop rfl
        simp [Store.depth] at this
        exact this
      cases p with
      | node m1 cd1 p1 => simp [Store.depth] at hdep
      | root m0 cd0 => exact countInv_Commit_depth1 hW.1 hA.1

theorem countInv_init : CountInv initStore := by
  intro v hv
  simp [initStore, Store.countVal, Store.resolveCount, Store.keysF]

/-- Every state reachable without deep commits satisfies the Count-Get
consistency (for non-empty values) at every layer, and all overlays are
well-formed. -/
theorem reachableSh_inv {s : Store} (h : ReachableSh s) :
    AllCountInv s ∧ s.WF := by
  induction h with
  | init => exact ⟨countInv_init, by simp [initStore, Store.WF, KvWF]⟩
  | step op _ hcm ih =>
    exact ⟨allCountInv_step ih.1 ih.2 op hcm, WF_step ih.2 op⟩

/-! ### Balanced transaction bodies: no Commit, matched Begin/Rollback -/

/-- Operation sequences that stay inside the transaction opened just before
them: only local operations, plus properly nested
`Begin ... Rollback` blocks.  Such a sequence contains no `Commit` and
never pops below its starting layer. -/
inductive Balanced : List Op → Prop where
  | nil : Balanced []
  | localOp {op : Op} (h : isLocal op = true) {rest : List Op} :
      Balanced rest → Balanced (op :: rest)
  | nest {inner rest : List Op} : Balanced inner → Balanced rest →
      Balanced (Op.begin :: inner ++ Op.rollback :: rest)

theorem run_cons (s : Store) (op : Op) (ops : List Op) :
    run s (op :: ops) = run (s.step op) ops := rfl

theorem run_append (s : Store) (a b : List Op) :
    run s (a ++ b) = run (run s a) b :=
  List.foldl_append _ _ _ _

/-- A local operation maps a transaction layer to a transaction layer over
the same untouched parent. -/
theorem step_local_node (m : Kv) (cd : CountDiff) (p : Store) {op : Op}
    (h : isLocal op = true) :
    ∃ m' cd', (Store.node m cd p).step op = Store.node m' cd' p := by
  cases op with
  | set k v =>
    obtain ⟨cd', hcd⟩ := Set_shape_node m cd p k v
    exact ⟨_, cd', hcd⟩
  | get k => exact ⟨m, cd, rfl⟩
  | del k =>
    rcases Delete_cases (Store.node m cd p) k with hd | hd
    · exact ⟨m, cd, by simp only [Store.step, Store.applyOp, hd]⟩
    · obtain ⟨cd', hcd⟩ := Set_shape_node m cd p k ""
      exact ⟨_, cd', by
        simp only [Store.step, Store.applyOp, hd]
        exact hcd⟩
  | count v => exact ⟨m, cd, rfl⟩
  | begin => simp [isLocal] at h
  | rollback => simp [isLocal] at h
  | commit => simp [isLocal] at h

/-- Running a balanced body on a transaction layer leaves every layer from
the parent down untouched. -/
theorem balanced_run {ops : List Op} (h : Balanced ops) :
    ∀ (m : Kv) (cd : CountDiff) (S : Store),
      ∃ m' cd', run (Store.node m cd S) ops = Store.node m' cd' S := by
  induction h with
  | nil => exact fun m cd S => ⟨m, cd, rfl⟩
  | localOp hop _ ih =>
    intro m cd S
    obtain ⟨m1, cd1, h1⟩ := step_local_node m cd S hop
    obtain ⟨m', cd', h2⟩ := ih m1 cd1 S
    refine ⟨m', cd', ?_⟩
    rw [run_cons, h1, h2]
  | @nest inner rest _ _ ihin ihrest =>
    intro m cd S
    obtain ⟨mi, cdi, hi⟩ := ihin [] (fun _ => 0) (Store.node m cd S)
    obtain ⟨m', cd', hr⟩ := ihrest m cd S
    refine ⟨m', cd', ?_⟩
    calc run (Store.node m cd S) (Op.begin :: inner ++ Op.rollback :: rest)
        = run (Store.node [] (fun _ => 0) (Store.node m cd S))
            (inner ++ Op.rollback :: rest) := rfl
      _ = run (run (Store.node [] (fun _ => 0) (Store.node m cd S)) inner)
            (Op.rollback :: rest) := run_append _ _ _
      _ = run (Store.node mi cdi (Store.node m cd S))
            (Op.rollback :: rest) := by rw [hi]
      _ = run (Store.node m cd S) rest := rfl
      _ = Store.node m' cd' S := hr

/-! ### Depth-1 commit simulation (C6) -/

/-- Simulation between the components of a depth-1 transaction state
`node hm hcd (root rm rcd)` and a direct root state `root dm dcd`: the
overlay chain and the direct overlay answer lookups identically, and the
summed deltas agree. -/
def SimC (hm : Kv) (hcd : CountDiff) (rm : Kv) (rcd : CountDiff)
    (dm : Kv) (dcd : CountDiff) : Prop :=
  KvWF hm ∧
  (∀ k, (match kvLookup hm k with
         | some v => some v
         | none => kvLookup rm k) = kvLookup dm k) ∧
  (∀ v, rcd v + hcd v = dcd v)

theorem simC_get_eq {hm : Kv} {rm dm : Kv}
    (hlk : ∀ k, (match kvLookup hm k with
                 | some v => some v
                 | none => kvLookup rm k) = kvLookup dm k)
    (hcd : CountDiff) (rcd dcd : CountDiff) (k : String) :
    (Store.node hm hcd (.root rm rcd)).Get k = (Store.root dm dcd).Get k := by
  have hk := hlk k
  unfold Store.Get
  cases hh : kvLookup hm k with
  | some v =>
    rw [hh] at hk
    rw [← hk]
  | none =>
    rw [hh] at hk
    rw [← hk]
    unfold Store.Get
    cases kvLookup rm k <;> rfl

theorem simC_set {hm : Kv} {hcd : CountDiff} {rm : Kv} {rcd : CountDiff}
    {dm : Kv} {dcd : CountDiff} (h : SimC hm hcd rm rcd dm dcd)
    (k v : String) :
    ∃ hm' hcd' dm' dcd',
      ((Store.node hm hcd (.root rm rcd)).Set k v).2 =
        Store.node hm' hcd' (.root rm rcd) ∧
      ((Store.root dm dcd).Set k v).2 = Store.root dm' dcd' ∧
      SimC hm' hcd' rm rcd dm' dcd' := by
  obtain ⟨hwf, hlk, hsum⟩ := h
  have hget := simC_get_eq hlk hcd rcd dcd k
  have hwf' : KvWF (kvInsert hm k v) := KvWF_kvInsert hwf k v
  have hlk' : ∀ k', (match kvLookup (kvInsert hm k v) k' with
      | some w => some w
      | none => kvLookup rm k') = kvLookup (kvInsert dm k v) k' := by
    intro k'
    rw [kvLookup_kvInsert, kvLookup_kvInsert]
    by_cases hk' : k = k'
    · simp [hk']
    · simp only [hk', if_false]
      exact hlk k'
  rcases get_err_cases (Store.node hm hcd (.root rm rcd)) k with hf | hf
  · -- the key resolves: both sides decrement the same old value
    have hfD : ((Store.root dm dcd).Get k).2 = none := by
      rw [← hget]
      exact hf
    have hold : ((Store.root dm dcd).Get k).1 =
        ((Store.node hm hcd (.root rm rcd)).Get k).1 := by
      rw [← hget]
    by_cases hval : v = ""
    · refine ⟨kvInsert hm k v,
        cdAdd hcd ((Store.node hm hcd (.root rm rcd)).Get k).1 (-1),
        kvInsert dm k v,
        cdAdd dcd ((Store.node hm hcd (.root rm rcd)).Get k).1 (-1),
        ?_, ?_, hwf', hlk', ?_⟩
      · rw [Set_eq]
        simp [hf, hval, Store.addCd, Store.setKv]
      · rw [Set_eq]
        simp [hfD, hval, hold, Store.addCd, Store.setKv]
      · intro w
        simp only [cdAdd]
        split_ifs <;> linarith [hsum w]
    · refine ⟨kvInsert hm k v,
        cdAdd (cdAdd hcd ((Store.node hm hcd (.root rm rcd)).Get k).1 (-1)) v 1,
        kvInsert dm k v,
        cdAdd (cdAdd dcd ((Store.node hm hcd (.root rm rcd)).Get k).1 (-1)) v 1,
        ?_, ?_, hwf', hlk', ?_⟩
      · rw [Set_eq]
        simp [hf, hval, Store.addCd, Store.setKv]
      · rw [Set_eq]
        simp [hfD, hval, hold, Store.addCd, Store.setKv]
      · intro w
        simp only [cdAdd]
        split_ifs <;> linarith [hsum w]
  · -- the key does not resolve on either side: no decrement
    have hfD : ((Store.root dm dcd).Get k).2 = some Err.keyNotFound := by
      rw [← hget]
      exact hf
    by_cases hval : v = ""
    · refine ⟨kvInsert hm k v, hcd, kvInsert dm k v, dcd,
        ?_, ?_, hwf', hlk', hsum⟩
      · rw [Set_eq]
        simp [hf, hval, Store.setKv]
      · rw [Set_eq]
        simp [hfD, hval, Store.setKv]
    · refine ⟨kvInsert hm k v, cdAdd hcd v 1, kvInsert dm k v, cdAdd dcd v 1,
        ?_, ?_, hwf', hlk', ?_⟩
      · rw [Set_eq]
        simp [hf, hval, Store.setKv, Store.addCd]
      · rw [Set_eq]
        simp [hfD, hval, Store.setKv, Store.addCd]
      · intro w
        simp only [cdAdd]
        split_ifs <;> linarith [hsum w]

theorem simC_step {hm : Kv} {hcd : CountDiff} {rm : Kv} {rcd : CountDiff}
    {dm : Kv} {dcd : CountDiff} (h : SimC hm hcd rm rcd dm dcd)
    {op : Op} (hop : isLocal op = true) :
    ∃ hm' hcd' dm' dcd',
      (Store.node hm hcd (.root rm rcd)).step op =
        Store.node hm' hcd' (.root rm rcd) ∧
      (Store.root dm dcd).step op = Store.root dm' dcd' ∧
      SimC hm' hcd' rm rcd dm' dcd' := by
  cases op with
  | set k v =>
    obtain ⟨hm', hcd', dm', dcd', h1, h2, h3⟩ := simC_set h k v
    exact ⟨hm', hcd', dm', dcd', h1, h2, h3⟩
  | get k => exact ⟨hm, hcd, dm, dcd, rfl, rfl, h⟩
  | del k =>
    have hget := simC_get_eq h.2.1 hcd rcd dcd k
    rcases get_err_cases (Store.node hm hcd (.root rm rcd)) k with hf | hf
    · obtain ⟨hm', hcd', dm', dcd', h1, h2, h3⟩ := simC_set h k ""
      refine ⟨hm', hcd', dm', dcd', ?_, ?_, h3⟩
      · simp only [Store.step, Store.applyOp, Store.Delete, hf]
        exact h1
      · have hfD : ((Store.root dm dcd).Get k).2 = none := by
          rw [← hget]
          exact hf
        simp only [Store.step, Store.applyOp, Store.Delete, hfD]
        exact h2
    · have hfD : ((Store.root dm dcd).Get k).2 = some Err.keyNotFound := by
        rw [← hget]
        exact hf
      refine ⟨hm, hcd, dm, dcd, ?_, ?_, h⟩
      · simp only [Store.step, Store.applyOp, Store.Delete, hf]
      · simp only [Store.step, Store.applyOp, Store.Delete, hfD]
  | count v => exact ⟨hm, hcd, dm, dcd, rfl, rfl, h⟩
  | begin => simp [isLocal] at hop
  | rollback => simp [isLocal] at hop
  | commit => simp [isLocal] at hop

theorem simC_run (ops : List Op) (hloc : ∀ op ∈ ops, isLocal op = true)
    {hm : Kv} {hcd : CountDiff} {rm : Kv} {rcd : CountDiff}
    {dm : Kv} {dcd : CountDiff} (h : SimC hm hcd rm rcd dm dcd) :
    ∃ hm' hcd' dm' dcd',
      run (Store.node hm hcd (.root rm rcd)) ops =
        Store.node hm' hcd' (.root rm rcd) ∧
      run (Store.root dm dcd) ops = Store.root dm' dcd' ∧
      SimC hm' hcd' rm rcd dm' dcd' := by
  induction ops generalizing hm hcd dm dcd with
  | nil => exact ⟨hm, hcd, dm, dcd, rfl, rfl, h⟩
  | cons op rest ih =>
    obtain ⟨hm1, hcd1, dm1, dcd1, h1, h2, h3⟩ :=
      simC_step h (hloc op (List.mem_cons_self _ _))
    obtain ⟨hm', hcd', dm', dcd', h4, h5, h6⟩ :=
      ih (fun o ho => hloc o (List.mem_cons_of_mem _ ho)) h3
    refine ⟨hm', hcd', dm', dcd', ?_, ?_, h6⟩
    · rw [run_cons, h1, h4]
    · rw [run_cons, h2, h5]

/-! ### Support of deltas and overlay values (C3) -/

/-- Every overlay value is the tombstone or a value from `V`. -/
def kvValsOk (V : List String) (m : Kv) : Prop :=
  ∀ q ∈ m, q.2 = "" ∨ q.2 ∈ V

/-- The delta vanishes outside `V` and the tombstone value. -/
def cdOk (V : List String) (cd : CountDiff) : Prop :=
  ∀ v, v ∉ V → v ≠ "" → cd v = 0

/-- `kvValsOk` and `cdOk` at every layer. -/
def SupOk (V : List String) : Store → Prop
  | .root m cd => kvValsOk V m ∧ cdOk V cd
  | .node m cd p => (kvValsOk V m ∧ cdOk V cd) ∧ SupOk V p

theorem supOk_get {V : List String} {s : Store} (h : SupOk V s) (k : String) :
    (s.Get k).2 = none → (s.Get k).1 = "" ∨ (s.Get k).1 ∈ V := by
  induction s with
  | root m cd =>
    unfold Store.Get
    cases hkv : kvLookup m k with
    | some v => exact fun _ => h.1 _ (kvLookup_mem hkv)
    | none => intro hc; cases hc
  | node m cd p ih =>
    unfold Store.Get
    cases hkv : kvLookup m k with
    | some v => exact fun _ => h.1.1 _ (kvLookup_mem hkv)
    | none => exact ih h.2

theorem cdOk_cdAdd {V : List String} {cd : CountDiff} (h : cdOk V cd)
    {u : String} (hu : u = "" ∨ u ∈ V) (d : Int) : cdOk V (cdAdd cd u d) := by
  intro v hv hv'
  unfold cdAdd
  by_cases hvu : v = u
  · subst hvu
    rcases hu with hu | hu
    · exact absurd hu hv'
    · exact absurd hu hv
  · rw [if_neg hvu]
    exact h v hv hv'

theorem kvValsOk_insert {V : List String} {m : Kv} (h : kvValsOk V m)
    {w : String} (hw : w = "" ∨ w ∈ V) (k : String) :
    kvValsOk V (kvInsert m k w) := by
  intro q hq
  rcases mem_kvInsert hq with he | he
  · rw [he]
    exact hw
  · exact h q he

theorem supOk_setKv {V : List String} {s : Store} (h : SupOk V s)
    {w : String} (hw : w = "" ∨ w ∈ V) (k : String) :
    SupOk V (s.setKv k w) := by
  cases s with
  | root m cd => exact ⟨kvValsOk_insert h.1 hw k, h.2⟩
  | node m cd p => exact ⟨⟨kvValsOk_insert h.1.1 hw k, h.1.2⟩, h.2⟩

theorem supOk_addCd {V : List String} {s : Store} (h : SupOk V s)
    {u : String} (hu : u = "" ∨ u ∈ V) (d : Int) :
    SupOk V (s.addCd u d) := by
  cases s with
  | root m cd => exact ⟨h.1, cdOk_cdAdd h.2 hu d⟩
  | node m cd p => exact ⟨⟨h.1.1, cdOk_cdAdd h.1.2 hu d⟩, h.2⟩

theorem supOk_Set {V : List String} {s : Store} (h : SupOk V s)
    {k w : String} (hw : w = "" ∨ w ∈ V) : SupOk V ((s.Set k w).2) := by
  rw [Set_eq]
  dsimp only
  by_cases hf : (s.Get k).2 = none <;> by_cases hval : w = "" <;>
    simp only [hf, hval, if_true, if_false, ite_true, ite_false]
  · exact hval ▸ supOk_setKv (supOk_addCd h (supOk_get h k hf) (-1)) hw k
  · exact supOk_addCd (supOk_setKv (supOk_addCd h (supOk_get h k hf) (-1)) hw k) hw 1
  · exact hval ▸ supOk_setKv h hw k
  · exact supOk_addCd (supOk_setKv h hw k) hw 1

theorem supOk_primary {V : List String} {s : Store} (h : SupOk V s) :
    kvValsOk V s.GetPrimaryStore.kv := by
  induction s with
  | root m cd => exact h.1
  | node m cd p ih => exact ih h.2

theorem supOk_countVal {V : List String} {s : Store} (h : SupOk V s)
    {v : String} (hv : v ∉ V) (hv' : v ≠ "") : s.countVal v = 0 := by
  induction s with
  | root m cd => exact h.2 v hv hv'
  | node m cd p ih =>
    show cd v + p.countVal v = 0
    rw [h.1.2 v hv hv', ih h.2]
    ring

theorem supOk_step {V : List String} {s : Store} (h : SupOk V s) (op : Op)
    (hop : ∀ k w, op = Op.set k w → w ∈ V) : SupOk V (s.step op) := by
  cases op with
  | set k w => exact supOk_Set h (Or.inr (hop k w rfl))
  | get k => exact h
  | del k =>
    rcases Delete_cases s k with hd | hd <;>
      simp only [Store.step, Store.applyOp, hd]
    · exact h
    · exact supOk_Set h (Or.inl rfl)
  | count v => exact h
  | begin =>
    refine ⟨⟨?_, ?_⟩, h⟩
    · intro q hq
      cases hq
    · intro v _ _
      rfl
  | rollback =>
    cases s with
    | root m cd => exact h
    | node m cd p => exact h.2
  | commit =>
    cases s with
    | root m cd => exact h
    | node m cd p =>
      refine ⟨?_, ?_⟩
      · intro q hq
        rcases mem_kvMergeInto hq with hb | hb
        · exact supOk_primary h.2 q hb
        · exact h.1.1 q hb
      · intro v hv hv'
        rw [commitCountDiffs_eq_countVal]
        exact supOk_countVal h hv hv'

theorem supOk_run {V : List String} (ops : List Op)
    (hsub : ∀ v ∈ setValues ops, v ∈ V) {s : Store} (h : SupOk V s) :
    SupOk V (run s ops) := by
  induction ops generalizing s with
  | nil => exact h
  | cons op rest ih =>
    rw [run_cons]
    refine ih ?_ (supOk_step h op ?_)
    · intro v hvr
      refine hsub v ?_
      cases op <;> simp [setValues, hvr]
    · rintro k w rfl
      exact hsub w (by simp [setValues])

/-! ### Claim theorems -/

/-- Claim C1, counterexample: the Count-Get consistency invariant fails as
stated.  After `BEGIN; SET a foo; BEGIN; COMMIT` (a reachable state) the
value "foo" has Count 1 but no key resolves to it; and after
`SET a foo; DELETE a` the value "" has Count 0 but one key (the tombstoned
"a") resolves to it. -/
theorem C1_counterexample :
    (Reachable (run initStore [Op.begin, Op.set "a" "foo", Op.begin, Op.commit]) ∧
      ((run initStore [Op.begin, Op.set "a" "foo", Op.begin, Op.commit]).Count "foo").1 = 1 ∧
      ((run initStore [Op.begin, Op.set "a" "foo", Op.begin, Op.commit]).resolveCount "foo" : Int) = 0) ∧
    (Reachable (run initStore [Op.set "a" "foo", Op.del "a"]) ∧
      ((run initStore [Op.set "a" "foo", Op.del "a"]).Count "").1 = 0 ∧
      ((run initStore [Op.set "a" "foo", Op.del "a"]).resolveCount "" : Int) = 1) :=
  ⟨⟨⟨_, rfl⟩, by decide, by decide⟩, ⟨⟨_, rfl⟩, by decide, by decide⟩⟩

/-- Claim C1 (amended): in every state reachable by a sequence that never
commits at nesting depth two or more, and for every non-empty value v,
`Count(v)` equals the number of keys whose `Get` currently resolves
to v. -/
theorem C1_count_get_invariant {s : Store} (hs : ReachableSh s)
    {v : String} (hv : v ≠ "") :
    (s.Count v).1 = (s.resolveCount v : Int) := by
  rw [Count_eq_countVal]
  exact (reachableSh_inv hs).1.head v hv

theorem C1_count_get_invariant_witness :
    ReachableSh (run initStore [Op.set "a" "foo"]) ∧
    ((run initStore [Op.set "a" "foo"]).Count "foo").1 =
      ((run initStore [Op.set "a" "foo"]).resolveCount "foo" : Int) := by
  have hre : ReachableSh (run initStore [Op.set "a" "foo"]) :=
    ReachableSh.step (Op.set "a" "foo") ReachableSh.init (by decide)
  exact ⟨hre, C1_count_get_invariant hre (by decide)⟩

/-- Claim C2, counterexample: committing at depth 2 does not write the
intervening layer's keys into the root.  After `BEGIN; SET a foo; BEGIN`
the chain is at depth 2 and resolves "a" to "foo", but after the `COMMIT`
the root fails to resolve "a" at all (while, per the amended C2 theorem,
its count delta was still accumulated). -/
theorem C2_counterexample :
    (run initStore [Op.begin, Op.set "a" "foo", Op.begin]).depth = 2 ∧
    (run initStore [Op.begin, Op.set "a" "foo", Op.begin]).Get "a" = ("foo", none) ∧
    (run initStore [Op.begin, Op.set "a" "foo", Op.begin, Op.commit]).Get "a" =
      ("", some Err.keyNotFound) ∧
    ((run initStore [Op.begin, Op.set "a" "foo", Op.begin, Op.commit]).Count "foo").1 = 1 :=
  ⟨by decide, by decide, by decide, by decide⟩

theorem GetPrimaryStore_shape (s : Store) :
    ∃ m0 cd0, s.GetPrimaryStore = Store.root m0 cd0 := by
  induction s with
  | root m cd => exact ⟨m, cd, rfl⟩
  | node m cd p ih => exact ih

/-- Claim C2 (amended): Commit from any transaction layer collapses into
the root in one step: it succeeds, every key in the *current* layer's
overlay - and only that layer's - resolves at the new root to its
current-layer value, every key absent from the current layer's overlay
resolves at the new root exactly as it did at the old primary store (so
keys set only in intervening layers are not copied and no longer
resolve), every layer's count delta is accumulated into the new root's
delta, and the result is the root (no parent). -/
theorem C2_commit_collapse (m : Kv) (cd : CountDiff) (p : Store)
    (hwf : KvWF m) :
    ((Store.node m cd p).Commit).1 = none ∧
    (∀ k v, kvLookup m k = some v →
      (((Store.node m cd p).Commit).2).Get k = (v, none)) ∧
    (∀ k, kvLookup m k = none →
      (((Store.node m cd p).Commit).2).Get k = p.GetPrimaryStore.Get k) ∧
    (∀ v, (((Store.node m cd p).Commit).2).cdOf v =
      (Store.node m cd p).countVal v) ∧
    (((Store.node m cd p).Commit).2).parentOf = none := by
  refine ⟨rfl, ?_, ?_, ?_, rfl⟩
  · intro k v hkv
    show (Store.root (kvMergeInto _ m) _).Get k = (v, none)
    unfold Store.Get
    rw [kvLookup_kvMergeInto hwf, hkv]
  · intro k hk
    obtain ⟨m0, cd0, hp⟩ := GetPrimaryStore_shape p
    have hps : (Store.node m cd p).GetPrimaryStore = Store.root m0 cd0 := hp
    show (Store.root (kvMergeInto (Store.node m cd p).GetPrimaryStore.kv m)
        ((Store.node m cd p).commitCountDiffs)).Get k = p.GetPrimaryStore.Get k
    rw [hps, hp]
    show (Store.root (kvMergeInto m0 m)
        ((Store.node m cd p).commitCountDiffs)).Get k =
      (Store.root m0 cd0).Get k
    unfold Store.Get
    rw [kvLookup_kvMergeInto hwf, hk]
  · intro v
    show (Store.node m cd p).commitCountDiffs v = _
    exact commitCountDiffs_eq_countVal _ v

theorem C2_commit_collapse_witness :
    KvWF [("a", "bar")] ∧
    ((Store.node [("a", "bar")] (fun _ => 0)
        (Store.node [("c", "mid")] (fun _ => 0)
          (Store.root [("b", "foo")] (fun _ => 0)))).Commit).2.Get "a" =
      ("bar", none) ∧
    ((Store.node [("a", "bar")] (fun _ => 0)
        (Store.node [("c", "mid")] (fun _ => 0)
          (Store.root [("b", "foo")] (fun _ => 0)))).Commit).2.Get "c" =
      ("", some Err.keyNotFound) :=
  ⟨by unfold KvWF; decide,
    (C2_commit_collapse [("a", "bar")] (fun _ => 0)
      (Store.node [("c", "mid")] (fun _ => 0)
        (Store.root [("b", "foo")] (fun _ => 0)))
      (by unfold KvWF; decide)).2.1 "a" "bar" rfl,
    ((C2_commit_collapse [("a", "bar")] (fun _ => 0)
      (Store.node [("c", "mid")] (fun _ => 0)
        (Store.root [("b", "foo")] (fun _ => 0)))
      (by unfold KvWF; decide)).2.2.1 "c" rfl).trans (by decide)⟩

/-- Claim C3, counterexample: Count can return a negative number.
After `SET a foo; DELETE a; SET a x` the count of "" is -1 (overwriting a
tombstone decrements the tombstone value's delta); and with a deep commit
even a non-empty value's count goes negative after
`SET a foo; BEGIN; DELETE a; BEGIN; COMMIT; DELETE a`. -/
theorem C3_counterexample :
    ((run initStore [Op.set "a" "foo", Op.del "a", Op.set "a" "x"]).Count "").1 = -1 ∧
    ((run initStore [Op.set "a" "foo", Op.begin, Op.del "a", Op.begin,
        Op.commit, Op.del "a"]).Count "foo").1 = -1 :=
  ⟨by decide, by decide⟩

/-- Claim C3 (amended): for every non-empty value v, Count never fails; in
states reachable without depth-two-or-more commits `Count(v)` is
non-negative; and if v was never the value argument of a Set in the
sequence that produced the state, `Count(v)` is 0. -/
theorem C3_count_nonneg (s : Store) (v : String) (hv : v ≠ "") :
    (s.Count v).2 = none ∧
    (ReachableSh s → 0 ≤ (s.Count v).1) ∧
    (∀ ops : List Op, run initStore ops = s → v ∉ setValues ops →
      (s.Count v).1 = 0) := by
  refine ⟨?_, ?_, ?_⟩
  · rw [Count_eq_countVal]
  · intro hre
    rw [Count_eq_countVal]
    show 0 ≤ s.countVal v
    rw [(reachableSh_inv hre).1.head v hv]
    exact_mod_cast Nat.zero_le _
  · intro ops hrun hv'
    rw [Count_eq_countVal]
    show s.countVal v = 0
    have h0 : SupOk (setValues ops) initStore :=
      ⟨fun q hq => absurd hq (List.not_mem_nil q), fun _ _ _ => rfl⟩
    have hsup := supOk_run ops (fun w hw => hw) h0
    rw [hrun] at hsup
    exact supOk_countVal hsup hv' hv

theorem C3_count_nonneg_witness :
    ("bar" : String) ≠ "" ∧
    (((run initStore [Op.set "a" "foo"]).Count "bar").2 = none ∧
      (ReachableSh (run initStore [Op.set "a" "foo"]) →
        0 ≤ ((run initStore [Op.set "a" "foo"]).Count "bar").1) ∧
      (∀ ops : List Op,
        run initStore ops = run initStore [Op.set "a" "foo"] →
        "bar" ∉ setValues ops →
        ((run initStore [Op.set "a" "foo"]).Count "bar").1 = 0)) :=
  ⟨by decide, C3_count_nonneg _ "bar" (by decide)⟩

/-- Claim C4, counterexample: in a non-transactional (root) state,
immediately after a successful `Delete`, `Get` does not fail with
KeyNotFound: it succeeds and returns the empty-string tombstone. -/
theorem C4_counterexample :
    (run initStore [Op.set "a" "foo", Op.del "a"]).depth = 0 ∧
    (run initStore [Op.set "a" "foo", Op.del "a"]).Get "a" = ("", none) :=
  ⟨by decide, by decide⟩

/-- Claim C4 (amended): in every root state, immediately after
`Set(key, v)` with any v (including v = "") `Get(key)` succeeds and
returns v; immediately after a successful `Delete(key)` it succeeds and
returns "" (the interpreter renders both "" and KeyNotFound as NULL);
a `Delete(key)` of an unresolvable key itself fails with KeyNotFound and
leaves the state unchanged. -/
theorem C4_root_set_get (m : Kv) (cd : CountDiff) (k v : String) :
    ((((Store.root m cd).Set k v).2).Get k = (v, none)) ∧
    ((((Store.root m cd).Set k "").2).Get k = ("", none)) ∧
    (((Store.root m cd).Get k).2 = none →
      (((Store.root m cd).Delete k).2).Get k = ("", none)) ∧
    (((Store.root m cd).Get k).2 = some Err.keyNotFound →
      (Store.root m cd).Delete k = (some Err.keyNotFound, Store.root m cd)) := by
  refine ⟨Get_Set_self _ _ _, Get_Set_self _ _ _, ?_, ?_⟩
  · intro hf
    have hd : (Store.root m cd).Delete k =
        (none, ((Store.root m cd).Set k "").2) := by
      unfold Store.Delete
      rw [hf]
    rw [hd]
    exact Get_Set_self _ _ _
  · intro hf
    unfold Store.Delete
    rw [hf]

theorem C4_root_set_get_witness :
    ((((Store.root [] (fun _ => 0)).Set "a" "foo").2).Get "a" = ("foo", none)) ∧
    (Store.root [] (fun _ => 0)).Delete "a" =
      (some Err.keyNotFound, Store.root [] (fun _ => 0)) :=
  ⟨(C4_root_set_get [] (fun _ => 0) "a" "foo").1,
   (C4_root_set_get [] (fun _ => 0) "a" "foo").2.2.2 rfl⟩

/-- Claim C5, counterexample: `Begin(); <ops>; Rollback()` is not a no-op
for arbitrary ops: with a Commit inside, `BEGIN; SET a foo; COMMIT;
ROLLBACK` leaves "a" resolving to "foo" although it was unset in the
initial state (the Rollback itself fails at the root). -/
theorem C5_counterexample :
    (run initStore [Op.begin, Op.set "a" "foo", Op.commit, Op.rollback]).Get "a" =
      ("foo", none) ∧
    initStore.Get "a" = ("", some Err.keyNotFound) :=
  ⟨by decide, by decide⟩

/-- Claim C5 (amended): for any state S and any balanced transaction body
(no Commit; Begin/Rollback properly nested, so the final Rollback matches
the Begin), running `Begin; ops; Rollback` from S returns exactly the
state S - in particular every Get and every Count observation is
restored. -/
theorem C5_rollback_inverse (S : Store) {ops : List Op} (h : Balanced ops) :
    run S (Op.begin :: ops ++ [Op.rollback]) = S := by
  obtain ⟨m', cd', h1⟩ := balanced_run h [] (fun _ => 0) S
  calc run S (Op.begin :: ops ++ [Op.rollback])
      = run (Store.node [] (fun _ => 0) S) (ops ++ [Op.rollback]) := rfl
    _ = run (run (Store.node [] (fun _ => 0) S) ops) [Op.rollback] :=
        run_append _ _ _
    _ = run (Store.node m' cd' S) [Op.rollback] := by rw [h1]
    _ = S := rfl

theorem C5_rollback_inverse_witness :
    run initStore (Op.begin ::
      [Op.set "a" "foo", Op.del "a", Op.count "foo"] ++ [Op.rollback]) =
      initStore :=
  C5_rollback_inverse initStore
    (Balanced.localOp (by decide)
      (Balanced.localOp (by decide)
        (Balanced.localOp (by decide) Balanced.nil)))

/-- Claim C6: for any sequence of local (Set/Delete/Get/Count) operations
and any root state, `Begin; ops; Commit` is observationally equivalent
(every Get and every Count) to running ops directly against the root. -/
theorem C6_depth1_commit_refines (rm : Kv) (rcd : CountDiff) (ops : List Op)
    (hloc : ∀ op ∈ ops, isLocal op = true) :
    obsEq (run (Store.root rm rcd) (Op.begin :: ops ++ [Op.commit]))
      (run (Store.root rm rcd) ops) := by
  have h0 : SimC [] (fun _ => 0) rm rcd rm rcd :=
    ⟨by simp [KvWF], fun k => rfl, fun v => by ring⟩
  obtain ⟨hm', hcd', dm', dcd', hL, hD, hwf', hlk', hsum'⟩ :=
    simC_run ops hloc h0
  have hrunL : run (Store.root rm rcd) (Op.begin :: ops ++ [Op.commit]) =
      ((Store.node hm' hcd' (.root rm rcd)).Commit).2 := by
    calc run (Store.root rm rcd) (Op.begin :: ops ++ [Op.commit])
        = run (Store.node [] (fun _ => 0) (.root rm rcd))
            (ops ++ [Op.commit]) := rfl
      _ = run (run (Store.node [] (fun _ => 0) (.root rm rcd)) ops)
            [Op.commit] := run_append _ _ _
      _ = run (Store.node hm' hcd' (.root rm rcd)) [Op.commit] := by rw [hL]
      _ = ((Store.node hm' hcd' (.root rm rcd)).Commit).2 := rfl
  rw [hrunL, hD]
  constructor
  · intro k
    show (Store.root (kvMergeInto rm hm')
        ((Store.node hm' hcd' (.root rm rcd)).commitCountDiffs)).Get k = _
    rw [Get_merge_depth1 hwf' hcd' _ rm rcd k]
    exact simC_get_eq hlk' hcd' rcd dcd' k
  · intro v
    rw [Count_eq_countVal, Count_eq_countVal]
    have h2 : ((Store.node hm' hcd' (.root rm rcd)).Commit).2.countVal v =
        (Store.node hm' hcd' (.root rm rcd)).countVal v := by
      show (Store.node hm' hcd' (.root rm rcd)).commitCountDiffs v = _
      exact commitCountDiffs_eq_countVal _ v
    rw [h2]
    show (hcd' v + rcd v, (none : Option Err)) = (dcd' v, none)
    rw [← hsum' v]
    rw [Int.add_comm]

theorem C6_depth1_commit_refines_witness :
    obsEq (run (Store.root [] (fun _ => 0))
        (Op.begin :: [Op.set "a" "foo", Op.del "a", Op.set "b" "foo"] ++
          [Op.commit]))
      (run (Store.root [] (fun _ => 0))
        [Op.set "a" "foo", Op.del "a", Op.set "b" "foo"]) :=
  C6_depth1_commit_refines [] (fun _ => 0) _ (by decide)

/-- Claim C7: Get resolves nearest-overlay-wins: an overlay hit at the
current layer (even the empty string) is returned as a definitive
resolution; on a miss it recurses into the parent when one exists; and it
fails with KeyNotFound exactly when no layer from the current one to the
root records the key. -/
theorem C7_get_resolution (s : Store) (k : String) :
    (∀ v, kvLookup s.kv k = some v → s.Get k = (v, none)) ∧
    (kvLookup s.kv k = none →
      s.Get k = (match s.parentOf with
                 | some p => p.Get k
                 | none => ("", some Err.keyNotFound))) ∧
    ((s.Get k).2 = some Err.keyNotFound ↔ s.records k = false) := by
  refine ⟨?_, ?_, ?_⟩
  · intro v hkv
    cases s with
    | root m cd =>
      simp only [Store.kv] at hkv
      simp [Store.Get, hkv]
    | node m cd p =>
      simp only [Store.kv] at hkv
      simp [Store.Get, hkv]
  · intro hkv
    cases s with
    | root m cd =>
      simp only [Store.kv] at hkv
      simp [Store.Get, Store.parentOf, hkv]
    | node m cd p =>
      simp only [Store.kv] at hkv
      simp [Store.Get, Store.parentOf, hkv]
  · constructor
    · intro hknf
      by_contra hrec
      have htrue : s.records k = true := by
        simpa using hrec
      have := (get_err_none_iff_records s k).mpr htrue
      rw [hknf] at this
      cases this
    · intro hrec
      rcases get_err_cases s k with h | h
      · have := (get_err_none_iff_records s k).mp h
        rw [hrec] at this
        cases this
      · exact h

theorem C7_get_resolution_witness :
    (run initStore [Op.set "a" "foo", Op.begin]).Get "a" = ("foo", none) ∧
    ((run initStore [Op.begin]).Get "a").2 = some Err.keyNotFound := by
  constructor
  · have h :=
      (C7_get_resolution (run initStore [Op.set "a" "foo", Op.begin]) "a").2.1
        (by decide)
    rw [h]
    decide
  · exact (C7_get_resolution (run initStore [Op.begin]) "a").2.2.mpr (by decide)

/-- Claim C8, counterexample: repeating `Set(key, "")` is not
Count-neutral: the second Set decrements the tombstone value's count, so
`Count("")` drops from 0 to -1. -/
theorem C8_counterexample :
    ((run initStore [Op.set "a" ""]).Count "").1 = 0 ∧
    ((run initStore [Op.set "a" "", Op.set "a" ""]).Count "").1 = -1 :=
  ⟨by decide, by decide⟩

/-- Claim C8 (amended): Delete of an unresolvable key fails with
KeyNotFound both times and leaves the state unchanged; and for a
*non-empty* value v, `Set(key, v)` run twice leaves `Count(v)` unchanged
after the second call. -/
theorem C8_idempotence (s : Store) (k v : String) :
    ((s.Get k).2 = some Err.keyNotFound →
      s.Delete k = (some Err.keyNotFound, s) ∧
      ((s.Delete k).2).Delete k = (some Err.keyNotFound, s)) ∧
    (v ≠ "" →
      (((s.Set k v).2).Set k v).2.Count v = ((s.Set k v).2).Count v) := by
  constructor
  · intro hf
    have h1 : s.Delete k = (some Err.keyNotFound, s) := by
      unfold Store.Delete
      rw [hf]
    refine ⟨h1, ?_⟩
    rw [h1]
    exact h1
  · intro hv
    rw [Count_eq_countVal, Count_eq_countVal]
    have h2 := countVal_Set ((s.Set k v).2) k v v
    rw [Get_Set_self] at h2
    simp only [hv, if_false, ite_false, if_true, ite_true] at h2
    simp at h2
    rw [h2]

theorem C8_idempotence_witness :
    initStore.Delete "a" = (some Err.keyNotFound, initStore) ∧
    (((initStore.Set "b" "x").2).Set "b" "x").2.Count "x" =
      ((initStore.Set "b" "x").2).Count "x" :=
  ⟨((C8_idempotence initStore "a" "x").1 (by decide)).1,
   (C8_idempotence initStore "b" "x").2 (by decide)⟩

/-- Claim C9: whenever an engine operation returns an error, the state is
unchanged - the operation performs zero mutation. -/
theorem C9_failure_atomicity (s : Store) (op : Op)
    (h : (s.applyOp op).1 ≠ none) : (s.applyOp op).2 = s := by
  cases op with
  | set k var => exact absurd (Set_fst s k var) h
  | get k => rfl
  | del k =>
    rcases hf : (s.Get k).2 with _ | e
    · refine absurd ?_ h
      simp [Store.applyOp, Store.Delete, hf]
    · simp [Store.applyOp, Store.Delete, hf]
  | count v => rfl
  | begin => exact absurd rfl h
  | rollback =>
    cases s with
    | root m cd => rfl
    | node m cd p => exact absurd rfl h
  | commit =>
    cases s with
    | root m cd => rfl
    | node m cd p => exact absurd rfl h

theorem C9_failure_atomicity_witness :
    (initStore.applyOp Op.rollback).1 ≠ none ∧
    (initStore.applyOp Op.rollback).2 = initStore :=
  ⟨by decide, C9_failure_atomicity initStore Op.rollback (by decide)⟩

/-- Claim C10: Set never fails - its error-propagation branch is dead code
because Get only ever fails with KeyNotFound. -/
theorem C10_set_never_fails :
    (∀ (s : Store) (k v : String), (s.Set k v).1 = none) ∧
    (∀ (s : Store) (k : String),
      (s.Get k).2 = none ∨ (s.Get k).2 = some Err.keyNotFound) :=
  ⟨fun s k v => Set_fst s k v, fun s k => get_err_cases s k⟩

end MemoryDb
